import Mathlib

/-!
Verification of the DOI-normalization and text-normalization core of
`util.py` (paperbuzz-api). Strings are modelled as `List Char` (with
`String` wrappers where convenient); Python's fallible `clean_doi` is
modelled with `Except`. Unicode-dependent Python predicates
(`unicodedata.category`, `str.isspace`, `str.isalnum`, `str.lower`, the
`unidecode` library) are modelled by executable functions that are exact
on ASCII and cover the non-ASCII characters appearing in this
development; the modelling notes on each definition state the extent.
-/

namespace Paperbuzz

/-- Model of membership in the Unicode major categories C (control/format/
private-use), M (combining marks), Z (separators), as tested by
`remove_nonprinting_characters` in `util.py` via `unicodedata.category(c)[0]`.
Exact on ASCII (C0 controls, space, DEL) and on the common non-ASCII
C/M/Z ranges (C1 controls, NBSP, soft hyphen, combining diacriticals,
Unicode space separators, format characters, BOM, BMP private use);
other characters are taken as printable, matching the Unicode table for
every character used in this development. -/
def isCMZ (c : Char) : Bool :=
  c.toNat ≤ 32 ||
  (127 ≤ c.toNat && c.toNat ≤ 160) ||
  c.toNat == 0xAD ||
  (0x300 ≤ c.toNat && c.toNat ≤ 0x36F) ||
  c.toNat == 0x1680 ||
  (0x2000 ≤ c.toNat && c.toNat ≤ 0x200F) ||
  (0x2028 ≤ c.toNat && c.toNat ≤ 0x202F) ||
  (0x205F ≤ c.toNat && c.toNat ≤ 0x2064) ||
  c.toNat == 0x3000 ||
  c.toNat == 0xFEFF ||
  (0xE000 ≤ c.toNat && c.toNat ≤ 0xF8FF)

/-- Membership in Unicode major categories C or Z only (excluding the
combining-mark categories M): the modelled `isCMZ` table minus its one
M range, the combining diacritical marks U+0300–U+036F. Lowercasing can
introduce a combining mark (category M) into a string but never a C or
Z character, so this is the part of the C/M/Z invariant that survives
`clean_doi`'s lowercasing step. -/
def isCZ (c : Char) : Bool :=
  isCMZ c && !(0x300 ≤ c.toNat && c.toNat ≤ 0x36F)

/-- Model of Python `str.isspace` (also the character set stripped by
`str.strip()` and matched by the regex class `\s`): ASCII whitespace
including the C0 field separators, plus NEL, NBSP and the Unicode space
separators. Exact on ASCII. -/
def pyIsSpace (c : Char) : Bool :=
  (9 ≤ c.toNat && c.toNat ≤ 13) ||
  c.toNat == 32 ||
  (28 ≤ c.toNat && c.toNat ≤ 31) ||
  c.toNat == 0x85 ||
  c.toNat == 0xA0 ||
  c.toNat == 0x1680 ||
  (0x2000 ≤ c.toNat && c.toNat ≤ 0x200A) ||
  c.toNat == 0x2028 ||
  c.toNat == 0x2029 ||
  c.toNat == 0x202F ||
  c.toNat == 0x205F ||
  c.toNat == 0x3000

/-- Membership in `[A-Z]`, the ASCII uppercase letters. -/
def isUpperAscii (c : Char) : Bool :=
  65 ≤ c.toNat && c.toNat ≤ 90

/-- Membership in `[a-zA-Z0-9]`, the ASCII alphanumeric characters. -/
def isAsciiAlnum (c : Char) : Bool :=
  (65 ≤ c.toNat && c.toNat ≤ 90) ||
  (97 ≤ c.toNat && c.toNat ≤ 122) ||
  (48 ≤ c.toNat && c.toNat ≤ 57)

/-- Model of Python `str.isalnum` per character: ASCII letters and digits,
plus the non-ASCII alphanumeric characters used in this development
(Python's predicate also accepts other non-ASCII letters and digits,
none of which occur here). -/
def pyIsAlnum (c : Char) : Bool :=
  isAsciiAlnum c || c == 'é'

/-- Model of the regex word-character class `\w` (used by `\b` word
boundaries): alphanumeric or underscore. -/
def pyIsWordChar (c : Char) : Bool :=
  pyIsAlnum c || c == '_'

/-- Membership in `[a-z0-9]`, the lowercase ASCII alphanumerics. -/
def isLowerAlnum (c : Char) : Bool :=
  (97 ≤ c.toNat && c.toNat ≤ 122) || (48 ≤ c.toNat && c.toNat ≤ 57)

/-- One-to-one part of the CPython `str.lower` case mapping: ASCII
uppercase letters are shifted to the corresponding lowercase letters,
everything else is left alone. Exact on ASCII and on every character
without a lowercase mapping; see `pyLowerChar` for the one
multi-character mapping. -/
def pyLower (c : Char) : Char :=
  if 65 ≤ c.toNat ∧ c.toNat ≤ 90 then Char.ofNat (c.toNat + 32) else c

/-- Model of CPython `str.lower` per character, as a character-to-string
mapping (CPython uses the full Unicode case mappings): the dotted
capital I (U+0130) lowercases to `i` followed by the combining dot
above U+0307 — the one lowercase mapping that produces more than one
character — and every other character goes through `pyLower`. One-to-one
non-ASCII case mappings (such as É→é) are not modelled: no claim
depends on them, and, unlike U+0130, they map letters to letters and so
cannot change which Unicode major categories appear in a string. -/
def pyLowerChar (c : Char) : List Char :=
  if c = 'İ' then ['i', '\u0307']
  else [pyLower c]

/-- CPython `str.lower` over a whole string. -/
def pyLowerStr (s : List Char) : List Char :=
  s.flatMap pyLowerChar

/-- Embedding of `remove_nonprinting_characters` (`util.py`): keeps the
characters whose Unicode major category is not C, M or Z. (The
`input_was_unicode` bookkeeping in the source is dead code under
Python 3 — the input is always `str` — so the function reduces to this
filter.) -/
def remove_nonprinting_characters (s : List Char) : List Char :=
  s.filter (fun c => !isCMZ c)

/-- Model of Python `str.strip()`: drop leading and trailing whitespace
characters. -/
def pyStrip (s : List Char) : List Char :=
  ((s.dropWhile pyIsSpace).reverse.dropWhile pyIsSpace).reverse

/-- Does the regex fragment `10.+` of `clean_doi` match at the head of the
string? It needs the literal characters `1`, `0` and then at least one
character matched by `.` (anything but a newline). -/
def startsDoi : List Char → Bool
  | c0 :: c1 :: c2 :: _ => c0 == '1' && c1 == '0' && c2 != '\n'
  | _ => false

/-- The greedy extent of `.+`: everything up to the end of the current
line. -/
def takeLine (s : List Char) : List Char :=
  s.takeWhile (fun c => c != '\n')

/-- First match of the capture group of the regex `.*?(10.+)` used by
`clean_doi` (via `re.findall(...)[0]`): the lazy prefix `.*?` together
with the scan of `findall` locate the first position where `10.+` can
match, and the greedy `.+` then extends the capture to the end of that
line. -/
def findDoiMatch : List Char → Option (List Char)
  | [] => none
  | c :: rest =>
    if startsDoi (c :: rest) then some (takeLine (c :: rest))
    else findDoiMatch rest

/-- The two `raise NoDoiException(...)` sites of `clean_doi`,
distinguished by their messages: "There's no DOI at all." for
empty/falsy input, "There's no valid DOI." when the regex finds no
match. -/
inductive NoDoiException where
  | noDoiAtAll
  | noValidDoi
deriving DecidableEq, Repr

/-- The cleaning pipeline at the head of `clean_doi`:
`remove_nonprinting_characters`, then `.strip()`, then `.lower()`. -/
def cleanedInput (s : List Char) : List Char :=
  pyLowerStr (pyStrip (remove_nonprinting_characters s))

/-- Embedding of `clean_doi` (`util.py`): raise on falsy (empty) input;
clean, strip and lowercase; find the first `10.+` match (raising if
there is none); truncate the match at the first `#`. (The
`str(match, "utf-8")` call in the source always raises `TypeError`
under Python 3 and is caught immediately, leaving the match unchanged,
so it is omitted.) -/
def cleanDoiL (s : List Char) : Except NoDoiException (List Char) :=
  if s = [] then .error .noDoiAtAll
  else
    match findDoiMatch (cleanedInput s) with
    | none => .error .noValidDoi
    | some m => .ok (m.takeWhile (fun c => c != '#'))

/-- String-level wrapper for `clean_doi`. -/
def clean_doi (s : String) : Except NoDoiException String :=
  (cleanDoiL s.data).map (fun l => ⟨l⟩)

instance {ε α : Type} [DecidableEq ε] [DecidableEq α] : DecidableEq (Except ε α) := fun
  | .error a, .error b =>
    if h : a = b then .isTrue (by rw [h]) else .isFalse (fun hc => h (Except.error.inj hc))
  | .ok a, .ok b =>
    if h : a = b then .isTrue (by rw [h]) else .isFalse (fun hc => h (Except.ok.inj hc))
  | .error _, .ok _ => .isFalse (fun hc => by cases hc)
  | .ok _, .error _ => .isFalse (fun hc => by cases hc)

/-- Scan for the first `>` on the current line, returning the rest of the
string after it; `none` when a newline or the end of the string comes
first (the lazy `.*?` of the regex `<.*?>` cannot cross a newline, and
an unclosed `<` does not match). -/
def findGt : List Char → Option (List Char)
  | [] => none
  | c :: rest =>
    if c = '>' then some rest
    else if c = '\n' then none
    else findGt rest

/-- Fuelled embedding of `clean_html` (`util.py`), i.e.
`re.sub('<.*?>', '', raw_html)`: at each `<`, the non-greedy match
removes everything through the next `>` on the same line; a `<` with no
such `>` is kept. When the fuel runs out the rest of the string is
returned unchanged (never reached from `clean_html`, which supplies the
string's length as fuel; each step consumes at least one character). -/
def cleanHtmlF : Nat → List Char → List Char
  | 0, s => s
  | _ + 1, [] => []
  | n + 1, c :: rest =>
    if c = '<' then
      match findGt rest with
      | some r => cleanHtmlF n r
      | none => c :: cleanHtmlF n rest
    else c :: cleanHtmlF n rest

/-- Embedding of `clean_html` (`util.py`). -/
def clean_html (s : List Char) : List Char :=
  cleanHtmlF s.length s

/-- Embedding of `remove_punctuation` (`util.py`): keep the characters
that are alphanumeric or whitespace. (The `if input_string:` guard in
the source only short-circuits the empty string, on which the filter is
the identity anyway.) -/
def remove_punctuation (s : List Char) : List Char :=
  s.filter (fun c => pyIsAlnum c || pyIsSpace c)

/-- Strip `w` from the front of `s`, returning the rest on success. -/
def stripLead : List Char → List Char → Option (List Char)
  | [], s => some s
  | _ :: _, [] => none
  | p :: ps, c :: cs => if p = c then stripLead ps cs else none

/-- Try to match `\b w \b` at the current position, where `w` consists of
word characters (as the stopwords of `util.py` do) and `prevWord` says
whether the character just before the current position is a word
character. The leading `\b` then demands that the previous character
not be a word character, and the trailing `\b` that the character after
the match (if any) not be a word character. Returns the rest of the
string after the match. -/
def tryWord (w : List Char) (prevWord : Bool) (s : List Char) :
    Option (List Char) :=
  if prevWord then none
  else
    match stripLead w s with
    | none => none
    | some rest =>
      match rest with
      | [] => some []
      | c :: _ => if pyIsWordChar c then none else some rest

/-- Try the alternatives of the regex alternation in order (as the regex
engine does), returning the rest after the first that matches. -/
def tryWords (ws : List (List Char)) (prevWord : Bool) (s : List Char) :
    Option (List Char) :=
  match ws with
  | [] => none
  | w :: rest =>
    match tryWord w prevWord s with
    | some r => some r
    | none => tryWords rest prevWord s

/-- Fuelled scan of `re.sub(r"\b(w1|w2|...)\b", "", s)` for whole words
`wi` made of word characters: at each position, if one of the
alternatives matches with word boundaries the match is deleted and the
scan resumes after it (the previous character is then the last letter
of the deleted word, a word character); otherwise the character is kept
and the scan moves on. When the fuel runs out the rest of the string is
returned unchanged (never reached from `reSubWords`, which supplies the
string's length as fuel; each step consumes at least one character). -/
def reSubWordsF (ws : List (List Char)) : Nat → Bool → List Char → List Char
  | 0, _, s => s
  | _ + 1, _, [] => []
  | n + 1, prevWord, c :: rest =>
    match tryWords ws prevWord (c :: rest) with
    | some r => reSubWordsF ws n true r
    | none => c :: reSubWordsF ws n (pyIsWordChar c) rest

/-- Whole-word deletion `re.sub(r"\b(...)\b", "", s)` for a list of
word-character-only alternatives. -/
def reSubWords (ws : List (List Char)) (s : List Char) : List Char :=
  reSubWordsF ws s.length false s

/-- The step `re.sub(r"\b(a|an|the)\b", "", response)` of `normalize` and
`normalize_simple`. -/
def stopArticles (s : List Char) : List Char :=
  reSubWords [['a'], ['a', 'n'], ['t', 'h', 'e']] s

/-- The step `re.sub(r"\b(and)\b", "", response)` of `normalize`. -/
def stopAnd (s : List Char) : List Char :=
  reSubWords [['a', 'n', 'd']] s

/-- The step `re.sub(r"\s+", "", response)`: replacing every maximal
whitespace run by the empty string deletes exactly the whitespace
characters. -/
def removeWS (s : List Char) : List Char :=
  s.filter (fun c => !pyIsSpace c)

/-- Model of the `unidecode` library per character: identity on ASCII
(the library passes ASCII through unchanged), tabulated on the
non-ASCII characters used in this development (`é` transliterates to
`e`, the numero sign to `No`), and the empty string on everything else
(the library's default for characters without a table entry is also
ASCII — it never emits non-ASCII output). -/
def unidecodeChar (c : Char) : List Char :=
  if c.toNat < 128 then [c]
  else if c = 'é' then ['e']
  else if c = '№' then ['N', 'o']
  else []

/-- The `unidecode` library over a whole string. -/
def unidecodeStr (s : List Char) : List Char :=
  s.flatMap unidecodeChar

/-- Embedding of `normalize` (`util.py`): lowercase, transliterate,
strip HTML tags, remove punctuation, delete the whole words `a`, `an`,
`the`, then `and`, and delete all whitespace. -/
def normalizeL (t : List Char) : List Char :=
  removeWS (stopAnd (stopArticles (remove_punctuation
    (clean_html (unidecodeStr (pyLowerStr t))))))

/-- String-level wrapper for `normalize`. -/
def normalize (t : String) : String :=
  ⟨normalizeL t.data⟩

/-- Embedding of `normalize_simple` (`util.py`): lowercase, remove
punctuation, delete the whole words `a`, `an`, `the`, and delete all
whitespace. -/
def normalizeSimpleL (t : List Char) : List Char :=
  removeWS (stopArticles (remove_punctuation (pyLowerStr t)))

/-- String-level wrapper for `normalize_simple`. -/
def normalize_simple (t : String) : String :=
  ⟨normalizeSimpleL t.data⟩

/-- Tail of the regex of `is_doi_url` after the optional `dx.`: the
fragment `doi.org\/` where the two dots are the regex wildcard
(anything but a newline). -/
def doiOrgPart : List Char → Bool
  | 'd' :: 'o' :: 'i' :: c :: 'o' :: 'r' :: 'g' :: '/' :: _ => c != '\n'
  | _ => false

/-- The fragment `(?:dx.)?doi.org\/` of the regex of `is_doi_url`:
either directly `doi.org/`, or `dx` plus a wildcard character and then
`doi.org/`. The trailing `(.*)` of the regex always matches and
constrains nothing. -/
def afterScheme (s : List Char) : Bool :=
  doiOrgPart s ||
  (match s with
   | 'd' :: 'x' :: c :: rest => c != '\n' && doiOrgPart rest
   | _ => false)

/-- Does the regex `https?:\/\/(?:dx.)?doi.org\/(.*)` of `is_doi_url`
match at the head of the string? -/
def doiUrlMatchAt : List Char → Bool
  | 'h' :: 't' :: 't' :: 'p' :: rest =>
    (match rest with
     | 's' :: ':' :: '/' :: '/' :: r => afterScheme r
     | ':' :: '/' :: '/' :: r => afterScheme r
     | _ => false)
  | _ => false

/-- The scan of `re.findall`: does the pattern match at some position of
the string? -/
def searchDoiUrl : List Char → Bool
  | [] => false
  | c :: rest => doiUrlMatchAt (c :: rest) || searchDoiUrl rest

/-- Embedding of `is_doi_url` (`util.py`): lowercase the url and return
whether `re.findall` finds at least one match of
`https?:\/\/(?:dx.)?doi.org\/(.*)` in it. -/
def is_doi_url (url : String) : Bool :=
  searchDoiUrl (pyLowerStr url.data)

/-- Stated from the spec for comparison with `is_doi_url` (refinement
check): the lowercased url is, in its entirety, of the form
`http(s)://[dx.]doi.org/<suffix>` with literal dots and an arbitrary
suffix. -/
def isDoiUrlSpecForm (url : String) : Bool :=
  let l := pyLowerStr url.data
  let tail := fun (r : List Char) =>
    (stripLead ['d', 'o', 'i', '.', 'o', 'r', 'g', '/'] r).isSome ||
    (stripLead ['d', 'x', '.', 'd', 'o', 'i', '.', 'o', 'r', 'g', '/'] r).isSome
  (match stripLead ['h', 't', 't', 'p', ':', '/', '/'] l with
   | some r => tail r
   | none => false) ||
  (match stripLead ['h', 't', 't', 'p', 's', ':', '/', '/'] l with
   | some r => tail r
   | none => false)

theorem toNat_ofNat_of_lt (n : Nat) (h : n < 55296) : (Char.ofNat n).toNat = n := by
  rw [Char.ofNat, dif_pos (Or.inl h)]
  rfl

theorem char_eq_of_toNat_eq {c d : Char} (h : c.toNat = d.toNat) : c = d := by
  apply Char.eq_of_val_eq
  cases hc : c.val
  cases hd : d.val
  simp only [Char.toNat, UInt32.toNat, hc, hd] at h
  exact congrArg UInt32.mk (BitVec.eq_of_toNat_eq h)

theorem pyLower_toNat (c : Char) :
    (65 ≤ c.toNat ∧ c.toNat ≤ 90 ∧ (pyLower c).toNat = c.toNat + 32) ∨
    (¬(65 ≤ c.toNat ∧ c.toNat ≤ 90) ∧ pyLower c = c) := by
  by_cases h : 65 ≤ c.toNat ∧ c.toNat ≤ 90
  · left
    refine ⟨h.1, h.2, ?_⟩
    rw [pyLower, if_pos h, toNat_ofNat_of_lt]
    omega
  · right
    exact ⟨h, by rw [pyLower, if_neg h]⟩

theorem isCMZ_false_of {c : Char} (h1 : 33 ≤ c.toNat) (h2 : c.toNat ≤ 126) :
    isCMZ c = false := by
  simp only [isCMZ, Bool.or_eq_false_iff, decide_eq_false_iff_not, Bool.and_eq_false_iff,
    beq_eq_false_iff_ne, ne_eq]
  omega

theorem pyIsSpace_false_of {c : Char} (h1 : 33 ≤ c.toNat) (h2 : c.toNat ≤ 126) :
    pyIsSpace c = false := by
  simp only [pyIsSpace, Bool.or_eq_false_iff, decide_eq_false_iff_not, Bool.and_eq_false_iff,
    beq_eq_false_iff_ne, ne_eq]
  omega

theorem isCMZ_of_pyIsSpace {c : Char} (h : pyIsSpace c = true) : isCMZ c = true := by
  simp only [pyIsSpace, Bool.or_eq_true, Bool.and_eq_true, decide_eq_true_eq,
    beq_iff_eq] at h
  simp only [isCMZ, Bool.or_eq_true, Bool.and_eq_true, decide_eq_true_eq, beq_iff_eq]
  repeat' rcases h with h | h
  all_goals omega

theorem pyLower_idem (c : Char) : pyLower (pyLower c) = pyLower c := by
  rcases pyLower_toNat c with ⟨h1, h2, h3⟩ | ⟨_, h2⟩
  · rcases pyLower_toNat (pyLower c) with ⟨h1', h2', _⟩ | ⟨_, h2'⟩
    · exfalso
      omega
    · exact h2'
  · simp only [h2]

theorem isUpperAscii_pyLower (c : Char) : isUpperAscii (pyLower c) = false := by
  rcases pyLower_toNat c with ⟨h1, h2, h3⟩ | ⟨h1, h2⟩ <;>
    simp only [isUpperAscii, Bool.and_eq_false_iff, decide_eq_false_iff_not] <;>
    [skip; rw [h2]] <;> omega

theorem isCMZ_pyLower (c : Char) : isCMZ (pyLower c) = isCMZ c := by
  rcases pyLower_toNat c with ⟨h1, h2, h3⟩ | ⟨_, h2⟩
  · rw [isCMZ_false_of (c := pyLower c) (by omega) (by omega),
      isCMZ_false_of (c := c) (by omega) (by omega)]
  · rw [h2]

theorem pyLower_fix {c : Char} (h : isUpperAscii c = false) : pyLower c = c := by
  rcases pyLower_toNat c with ⟨h1, h2, _⟩ | ⟨_, h2⟩
  · simp only [isUpperAscii, Bool.and_eq_false_iff, decide_eq_false_iff_not] at h
    omega
  · exact h2

theorem pyLower_toNat_lt {c : Char} (h : c.toNat < 128) : (pyLower c).toNat < 128 := by
  rcases pyLower_toNat c with ⟨_, _, h3⟩ | ⟨_, h2⟩
  · omega
  · rw [h2]
    exact h

theorem pyLower_ne_lt {c : Char} (h : c ≠ '<') : pyLower c ≠ '<' := by
  rcases pyLower_toNat c with ⟨h1, h2, h3⟩ | ⟨_, h2⟩
  · intro hc
    rw [hc] at h3
    have h60 : ('<').toNat = 60 := rfl
    omega
  · rwa [h2]

theorem pyLower_ne_dottedI {c : Char} (h : c ≠ 'İ') : pyLower c ≠ 'İ' := by
  rcases pyLower_toNat c with ⟨h1, h2, h3⟩ | ⟨_, h2⟩
  · intro hc
    rw [hc] at h3
    have h304 : ('İ').toNat = 304 := rfl
    omega
  · rwa [h2]

theorem pyLowerChar_of_ne {c : Char} (h : c ≠ 'İ') : pyLowerChar c = [pyLower c] := by
  unfold pyLowerChar
  rw [if_neg h]

theorem pyLowerChar_cases {c d : Char} (h : c ∈ pyLowerChar d) :
    (d ≠ 'İ' ∧ c = pyLower d) ∨ (c = 'i' ∨ c = '\u0307') := by
  unfold pyLowerChar at h
  by_cases hd : d = 'İ'
  · rw [if_pos hd] at h
    refine Or.inr ?_
    rcases List.mem_cons.mp h with rfl | h2
    · exact Or.inl rfl
    · exact Or.inr (List.mem_singleton.mp h2)
  · rw [if_neg hd] at h
    exact Or.inl ⟨hd, List.mem_singleton.mp h⟩

theorem pyLowerChar_fix {c : Char} (hu : isUpperAscii c = false) (hi : c ≠ 'İ') :
    pyLowerChar c = [c] := by
  rw [pyLowerChar_of_ne hi, pyLower_fix hu]

theorem flatMap_fix {f : Char → List Char} {s : List Char}
    (h : ∀ c ∈ s, f c = [c]) : s.flatMap f = s := by
  induction s with
  | nil => rfl
  | cons a as ih =>
    rw [List.flatMap_cons, h a (List.mem_cons_self _ _)]
    exact congrArg (a :: ·) (ih (fun d hd => h d (List.mem_cons_of_mem _ hd)))

theorem isCZ_false_of_not_CMZ {c : Char} (h : isCMZ c = false) : isCZ c = false := by
  unfold isCZ
  rw [h]
  rfl

theorem mem_pyLowerStr_ascii {c : Char} {s : List Char}
    (hs : ∀ d ∈ s, d.toNat < 128) (h : c ∈ pyLowerStr s) :
    ∃ d ∈ s, c = pyLower d := by
  obtain ⟨d, hd, hcd⟩ := List.mem_flatMap.mp h
  have hne : d ≠ 'İ' := by
    intro he
    have hlt := hs d hd
    rw [he] at hlt
    exact absurd hlt (by decide)
  rw [pyLowerChar_of_ne hne] at hcd
  exact ⟨d, hd, List.mem_singleton.mp hcd⟩

theorem map_fix {f : Char → Char} {s : List Char} (h : ∀ c ∈ s, f c = c) :
    s.map f = s := by
  rw [show s.map f = s.map id from List.map_congr_left h, List.map_id]

theorem dropWhile_fix {p : Char → Bool} {s : List Char} (h : ∀ c ∈ s, p c = false) :
    s.dropWhile p = s := by
  cases s with
  | nil => rfl
  | cons c cs => simp [List.dropWhile_cons, h c (List.mem_cons_self c cs)]

theorem pyStrip_fix {s : List Char} (h : ∀ c ∈ s, pyIsSpace c = false) :
    pyStrip s = s := by
  unfold pyStrip
  rw [dropWhile_fix h, dropWhile_fix (fun c hc => h c (List.mem_reverse.mp hc)),
    List.reverse_reverse]

theorem mem_pyStrip {c : Char} {s : List Char} (h : c ∈ pyStrip s) : c ∈ s := by
  unfold pyStrip at h
  rw [List.mem_reverse] at h
  have h2 := (List.dropWhile_sublist (l := (s.dropWhile pyIsSpace).reverse)
    (p := pyIsSpace)).subset h
  rw [List.mem_reverse] at h2
  exact (List.dropWhile_sublist (l := s) (p := pyIsSpace)).subset h2

theorem no_space_of_not_CMZ {c : Char} (h : isCMZ c = false) : pyIsSpace c = false := by
  by_cases hp : pyIsSpace c = true
  · rw [isCMZ_of_pyIsSpace hp] at h
    cases h
  · exact Bool.not_eq_true _ |>.mp hp

theorem ne_newline_of_not_CMZ {c : Char} (h : isCMZ c = false) : c ≠ '\n' := by
  intro hc
  rw [hc] at h
  cases h

theorem mem_cleanedInput {c : Char} {s : List Char} (h : c ∈ cleanedInput s) :
    pyIsSpace c = false ∧ isUpperAscii c = false ∧ isCZ c = false ∧
      c ≠ '\n' ∧ pyLowerChar c = [c] := by
  obtain ⟨d, hd, hcd⟩ := List.mem_flatMap.mp h
  have hd2 : d ∈ remove_nonprinting_characters s := mem_pyStrip hd
  have hd3 : isCMZ d = false := by
    have := (List.mem_filter.mp hd2).2
    simpa using this
  rcases pyLowerChar_cases hcd with ⟨hdne, rfl⟩ | (rfl | rfl)
  · have hcmz : isCMZ (pyLower d) = false := by
      rw [isCMZ_pyLower]
      exact hd3
    exact ⟨no_space_of_not_CMZ hcmz, isUpperAscii_pyLower d, isCZ_false_of_not_CMZ hcmz,
      ne_newline_of_not_CMZ hcmz, pyLowerChar_fix (isUpperAscii_pyLower d)
        (pyLower_ne_dottedI hdne)⟩
  · exact ⟨by decide, by decide, by decide, by decide, by decide⟩
  · exact ⟨by decide, by decide, by decide, by decide, by decide⟩

theorem cleanedInput_no_space {c : Char} {s : List Char} (h : c ∈ cleanedInput s) :
    pyIsSpace c = false :=
  (mem_cleanedInput h).1

theorem cleanedInput_no_newline {c : Char} {s : List Char} (h : c ∈ cleanedInput s) :
    c ≠ '\n' :=
  (mem_cleanedInput h).2.2.2.1

theorem cleanedInput_not_upper {c : Char} {s : List Char} (h : c ∈ cleanedInput s) :
    isUpperAscii c = false :=
  (mem_cleanedInput h).2.1

theorem startsDoi_shape {l : List Char} (h : startsDoi l = true) :
    ∃ c rest, l = '1' :: '0' :: c :: rest ∧ c ≠ '\n' := by
  rcases l with _ | ⟨c0, _ | ⟨c1, _ | ⟨c2, r⟩⟩⟩ <;> simp [startsDoi] at h
  exact ⟨c2, r, by rw [h.1.1, h.1.2], h.2⟩

theorem takeLine_eq_self {s : List Char} (h : ∀ c ∈ s, c ≠ '\n') :
    takeLine s = s :=
  List.takeWhile_eq_self_iff.mpr (fun x hx => by simpa [bne_iff_ne] using h x hx)

theorem mem_takeLine {c : Char} {s : List Char} (h : c ∈ takeLine s) : c ∈ s :=
  (List.takeWhile_sublist _).subset h

theorem findDoiMatch_none_iff (s : List Char) :
    findDoiMatch s = none ↔ ∀ i, startsDoi (List.drop i s) = false := by
  induction s with
  | nil =>
    simp only [findDoiMatch, List.drop_nil, true_iff]
    intro i
    rfl
  | cons c cs ih =>
    unfold findDoiMatch
    by_cases h : startsDoi (c :: cs) = true
    · rw [if_pos h]
      constructor
      · intro hc
        cases hc
      · intro hall
        have h0 := hall 0
        rw [List.drop_zero, h] at h0
        cases h0
    · rw [if_neg h, ih]
      rw [Bool.not_eq_true] at h
      constructor
      · intro hall i
        cases i with
        | zero => rwa [List.drop_zero]
        | succ n => rw [List.drop_succ_cons]; exact hall n
      · intro hall i
        have := hall (i + 1)
        rwa [List.drop_succ_cons] at this

theorem findDoiMatch_some {s m : List Char} (h : findDoiMatch s = some m) :
    ∃ i, startsDoi (List.drop i s) = true ∧ m = takeLine (List.drop i s) := by
  induction s with
  | nil => cases h
  | cons c cs ih =>
    unfold findDoiMatch at h
    by_cases hs : startsDoi (c :: cs) = true
    · rw [if_pos hs] at h
      exact ⟨0, by rwa [List.drop_zero], by rw [List.drop_zero, ← Option.some.inj h]⟩
    · rw [if_neg hs] at h
      obtain ⟨i, h1, h2⟩ := ih h
      exact ⟨i + 1, by rwa [List.drop_succ_cons], by rwa [List.drop_succ_cons]⟩

theorem findDoiMatch_append (pre rest : List Char)
    (hpre : ∀ j, j < pre.length → startsDoi (List.drop j (pre ++ rest)) = false)
    (h : startsDoi rest = true) :
    findDoiMatch (pre ++ rest) = some (takeLine rest) := by
  induction pre with
  | nil =>
    obtain ⟨c, r, rfl, _⟩ := startsDoi_shape h
    rw [List.nil_append]
    unfold findDoiMatch
    rw [if_pos h]
  | cons p ps ih =>
    have h0 : startsDoi (p :: (ps ++ rest)) = false := by
      have := hpre 0 (by simp)
      rwa [List.drop_zero, List.cons_append] at this
    rw [List.cons_append]
    unfold findDoiMatch
    rw [if_neg (by rw [h0]; intro hc; cases hc)]
    exact ih (fun j hj => by
      have := hpre (j + 1) (by simpa using Nat.succ_lt_succ hj)
      rwa [List.cons_append, List.drop_succ_cons] at this)

theorem cleanDoiL_ok {s r : List Char} (h : cleanDoiL s = .ok r) :
    s ≠ [] ∧ ∃ i, startsDoi (List.drop i (cleanedInput s)) = true ∧
      r = (takeLine (List.drop i (cleanedInput s))).takeWhile (fun c => c != '#') := by
  unfold cleanDoiL at h
  by_cases hs : s = []
  · rw [if_pos hs] at h
    cases h
  · rw [if_neg hs] at h
    refine ⟨hs, ?_⟩
    cases hm : findDoiMatch (cleanedInput s) with
    | none => rw [hm] at h; cases h
    | some m =>
      rw [hm] at h
      obtain ⟨i, h1, h2⟩ := findDoiMatch_some hm
      exact ⟨i, h1, by rw [← Except.ok.inj h, h2]⟩

theorem mem_cleanDoiL_result {s r : List Char} {c : Char}
    (h : cleanDoiL s = .ok r) (hc : c ∈ r) : c ∈ cleanedInput s ∧ c ≠ '#' := by
  obtain ⟨-, i, -, rfl⟩ := cleanDoiL_ok h
  refine ⟨(List.drop_sublist i _).subset (mem_takeLine ((List.takeWhile_sublist _).subset hc)), ?_⟩
  have := List.mem_takeWhile_imp hc
  simpa [bne_iff_ne] using this

theorem cleanDoiL_ok_shape {s r : List Char} (h : cleanDoiL s = .ok r) :
    r.take 2 = ['1', '0'] ∧
    (r = ['1', '0'] ∨ ∃ c2 r3, r = '1' :: '0' :: c2 :: r3 ∧ c2 ≠ '\n') := by
  obtain ⟨-, i, hsd, hr⟩ := cleanDoiL_ok h
  obtain ⟨c2, rest, hdrop, hc2⟩ := startsDoi_shape hsd
  rw [hdrop] at hr
  have h1 : takeLine ('1' :: '0' :: c2 :: rest) = '1' :: '0' :: c2 :: takeLine rest := by
    unfold takeLine
    rw [List.takeWhile_cons_of_pos (by decide), List.takeWhile_cons_of_pos (by decide),
      List.takeWhile_cons_of_pos (by simpa [bne_iff_ne] using hc2)]
  rw [h1, List.takeWhile_cons_of_pos (by decide), List.takeWhile_cons_of_pos (by decide)] at hr
  by_cases hh : c2 = '#'
  · rw [hh, List.takeWhile_cons_of_neg (by decide)] at hr
    exact ⟨by rw [hr]; rfl, Or.inl hr⟩
  · rw [List.takeWhile_cons_of_pos (by simpa [bne_iff_ne] using hh)] at hr
    exact ⟨by rw [hr]; rfl, Or.inr ⟨c2, _, hr, hc2⟩⟩

theorem cleanDoiL_fixpoint {s r : List Char} (h : cleanDoiL s = .ok r)
    (hr : r ≠ ['1', '0']) (hcm : ∀ c ∈ r, isCMZ c = false) : cleanDoiL r = .ok r := by
  have props : ∀ c ∈ r, isCMZ c = false ∧ pyLowerChar c = [c] ∧ c ≠ '#' := by
    intro c hc
    obtain ⟨h1, h2⟩ := mem_cleanDoiL_result h hc
    exact ⟨hcm c hc, (mem_cleanedInput h1).2.2.2.2, h2⟩
  obtain ⟨-, hsh⟩ := cleanDoiL_ok_shape h
  rcases hsh with rfl | ⟨c2, r3, hr_eq, hc2⟩
  · exact absurd rfl hr
  · have hne : r ≠ [] := by
      rw [hr_eq]
      intro hc
      cases hc
    have hclean : cleanedInput r = r := by
      unfold cleanedInput
      rw [show remove_nonprinting_characters r = r from
            List.filter_eq_self.mpr (fun c hc => by simp [(props c hc).1]),
          pyStrip_fix (fun c hc => no_space_of_not_CMZ (props c hc).1)]
      exact flatMap_fix (fun c hc => (props c hc).2.1)
    have hsd : startsDoi r = true := by
      rw [hr_eq]
      simp [startsDoi, bne_iff_ne, hc2]
    have hfm : findDoiMatch r = some (takeLine r) := by
      have := findDoiMatch_append [] r (by intro j hj; cases hj) hsd
      simpa using this
    unfold cleanDoiL
    rw [if_neg hne, hclean, hfm]
    show Except.ok ((takeLine r).takeWhile (fun c => c != '#')) = Except.ok r
    rw [takeLine_eq_self (fun c hc => ne_newline_of_not_CMZ (props c hc).1),
      List.takeWhile_eq_self_iff.mpr (fun c hc => by
        simpa [bne_iff_ne] using (props c hc).2.2)]

theorem cleanDoiL_error_empty_iff (s : List Char) :
    cleanDoiL s = .error .noDoiAtAll ↔ s = [] := by
  constructor
  · intro hc
    by_cases hs : s = []
    · exact hs
    · rw [cleanDoiL, if_neg hs] at hc
      rcases hm : findDoiMatch (cleanedInput s) with - | m
      · rw [hm] at hc
        exact absurd (Except.error.inj hc) (by decide)
      · rw [hm] at hc
        cases hc
  · intro hs
    rw [cleanDoiL, if_pos hs]

theorem cleanDoiL_error_invalid_iff (s : List Char) :
    cleanDoiL s = .error .noValidDoi ↔
      s ≠ [] ∧ findDoiMatch (cleanedInput s) = none := by
  constructor
  · intro hc
    by_cases hs : s = []
    · rw [cleanDoiL, if_pos hs] at hc
      exact absurd (Except.error.inj hc) (by decide)
    · rw [cleanDoiL, if_neg hs] at hc
      refine ⟨hs, ?_⟩
      rcases hm : findDoiMatch (cleanedInput s) with - | m
      · rfl
      · rw [hm] at hc
        cases hc
  · intro hsm
    rw [cleanDoiL, if_neg hsm.1, hsm.2]

theorem string_eq_empty_iff (s : String) : s = "" ↔ s.data = [] := by
  cases s
  simp [String.ext_iff]

theorem clean_doi_ok_data {s r : String} (h : clean_doi s = .ok r) :
    cleanDoiL s.data = .ok r.data := by
  unfold clean_doi at h
  cases hx : cleanDoiL s.data with
  | error e =>
    rw [hx] at h
    cases h
  | ok l =>
    rw [hx] at h
    rw [show r.data = l from by rw [← Except.ok.inj h]]

theorem clean_doi_of_cleanDoiL {s : String} {l : List Char}
    (h : cleanDoiL s.data = .ok l) : clean_doi s = .ok ⟨l⟩ := by
  unfold clean_doi
  rw [h]
  rfl

theorem clean_doi_error_iff (s : String) (e : NoDoiException) :
    clean_doi s = .error e ↔ cleanDoiL s.data = .error e := by
  unfold clean_doi
  cases hx : cleanDoiL s.data <;> simp [hx, Except.map]

/-- C1 counterexample: `clean_doi` is not idempotent on its successful
outputs, in two ways. First, `clean_doi "10#a"` succeeds with `"10"`,
on which `clean_doi` raises (the regex `10.+` requires a character
after `10`). Second, `clean_doi "10.İa"` succeeds with `10.i` +
U+0307 + `a` — lowercasing the dotted capital I produces the combining
dot above — and the second run's category-C/M/Z filter strips the
combining mark, returning the different string `"10.ia"`. -/
theorem claim_C1_counterexample :
    (clean_doi "10#a" = .ok "10" ∧ clean_doi "10" = .error .noValidDoi) ∧
    (clean_doi "10.İa" = .ok ⟨['1', '0', '.', 'i', '\u0307', 'a']⟩ ∧
      clean_doi ⟨['1', '0', '.', 'i', '\u0307', 'a']⟩ = .ok "10.ia" ∧
      ("10.ia" : String) ≠ ⟨['1', '0', '.', 'i', '\u0307', 'a']⟩) := by
  decide

/-- C1 (amended): for every input on which `clean_doi` succeeds with a
result other than the bare `"10"` and containing no character of
Unicode category C, M or Z (lowercasing `İ` can put a category-M
combining mark into a result, which the next run's filter strips),
running `clean_doi` on the result succeeds and returns it unchanged. -/
theorem claim_C1_amended (s r : String) (h : clean_doi s = .ok r)
    (hr : r ≠ "10") (hcm : ∀ c ∈ r.data, isCMZ c = false) : clean_doi r = .ok r := by
  have hcl := clean_doi_ok_data h
  have hfix := cleanDoiL_fixpoint hcl (by
    intro hc
    apply hr
    cases r
    simp [String.ext_iff]
    exact hc) hcm
  cases r
  exact clean_doi_of_cleanDoiL hfix

theorem claim_C1_witness :
    clean_doi "10.1/x" = .ok "10.1/x" ∧ ("10.1/x" : String) ≠ "10" ∧
      (∀ c ∈ ("10.1/x" : String).data, isCMZ c = false) ∧
      clean_doi "10.1/x" = .ok "10.1/x" :=
  ⟨by decide, by decide, by decide,
   claim_C1_amended "10.1/x" "10.1/x" (by decide) (by decide) (by decide)⟩

/-- C2 counterexample: two conjuncts of the claimed result shape fail.
The regex `10.+` matches `10` followed by ANY character (the dot is a
wildcard), so `clean_doi "10x"` succeeds with `"10x"`, which does not
begin with the literal prefix `"10."`. And a successful result can
contain a category-M character: lowercasing runs after the
category-C/M/Z filter and maps `İ` to `i` + U+0307 (combining dot
above, category Mn), so the result for `"10.İa"` contains U+0307. -/
theorem claim_C2_counterexample :
    (clean_doi "10x" = .ok "10x" ∧ ("10x" : String).data.take 3 ≠ ['1', '0', '.']) ∧
    (clean_doi "10.İa" = .ok ⟨['1', '0', '.', 'i', '\u0307', 'a']⟩ ∧
      '\u0307' ∈ ['1', '0', '.', 'i', '\u0307', 'a'] ∧ isCMZ '\u0307' = true) := by
  decide

/-- C2 (amended): every successful result of `clean_doi` begins with
`"10"` (not necessarily `"10."`), contains no uppercase ASCII letter,
no `#`, no whitespace, and no character of Unicode category C or Z;
category-M combining marks can appear, introduced by lowercasing after
the nonprinting-character filter. And
`clean_doi "https://doi.org/10.1234/ABC" = "10.1234/abc"`. -/
theorem claim_C2_amended :
    (∀ (s r : String), clean_doi s = .ok r →
      r.data.take 2 = ['1', '0'] ∧
      ∀ c ∈ r.data, isUpperAscii c = false ∧ c ≠ '#' ∧
        pyIsSpace c = false ∧ isCZ c = false) ∧
    clean_doi "https://doi.org/10.1234/ABC" = .ok "10.1234/abc" := by
  constructor
  · intro s r h
    have hcl := clean_doi_ok_data h
    refine ⟨(cleanDoiL_ok_shape hcl).1, ?_⟩
    intro c hc
    obtain ⟨h1, h2⟩ := mem_cleanDoiL_result hcl hc
    exact ⟨cleanedInput_not_upper h1, h2, cleanedInput_no_space h1,
      (mem_cleanedInput h1).2.2.1⟩
  · decide

theorem claim_C2_witness :
    ("10.1234/abc" : String).data.take 2 = ['1', '0'] ∧
      ∀ c ∈ ("10.1234/abc" : String).data, isUpperAscii c = false ∧ c ≠ '#' ∧
        pyIsSpace c = false ∧ isCZ c = false :=
  claim_C2_amended.1 "https://doi.org/10.1234/ABC" "10.1234/abc" (by decide)

/-- C3 counterexample: on the all-whitespace input `" "` (nonempty, and
empty after cleaning) `clean_doi` raises the invalid-DOI error, not the
empty-input error the claim requires: the `if not dirty_doi` check runs
before cleaning and only catches the empty string. -/
theorem claim_C3_counterexample :
    clean_doi " " = .error .noValidDoi ∧
      NoDoiException.noValidDoi ≠ NoDoiException.noDoiAtAll := by
  decide

/-- C3 (amended): `clean_doi` fails with the empty-input error exactly
when the input is the empty string, and with the invalid-DOI error
exactly when the input is nonempty and its cleaned, trimmed, lowercased
form has no position matching `10` followed by a character (this covers
whitespace-only inputs); these are the only two failures and they are
the two distinguishable cases of the raised exception. -/
theorem claim_C3_amended (s : String) :
    (clean_doi s = .error .noDoiAtAll ↔ s = "") ∧
    (clean_doi s = .error .noValidDoi ↔
      s ≠ "" ∧ ∀ i, startsDoi (List.drop i (cleanedInput s.data)) = false) := by
  constructor
  · rw [clean_doi_error_iff, cleanDoiL_error_empty_iff, string_eq_empty_iff]
  · rw [clean_doi_error_iff, cleanDoiL_error_invalid_iff, findDoiMatch_none_iff]
    simp only [ne_eq, string_eq_empty_iff]

theorem claim_C3_witness :
    ("no doi here" : String) ≠ "" ∧
      ∀ i, startsDoi (List.drop i (cleanedInput ("no doi here" : String).data)) = false :=
  (claim_C3_amended "no doi here").2.mp (by decide)

/-- C8 counterexample: the match starts at the first occurrence of `10`
followed by any character, not at the first literal `"10."`: on
`"10x10.5"` (whose cleaned form contains `"10."` followed by a
character at position 3) `clean_doi` keeps the whole string instead of
the claimed `"10.5"`. -/
theorem claim_C8_counterexample :
    clean_doi "10x10.5" = .ok "10x10.5" ∧ ("10x10.5" : String) ≠ "10.5" := by
  decide

/-- C8 (amended): when the cleaned, trimmed, lowercased input splits as
`pre ++ rest` where `rest` begins with `10` followed by at least one
character and no earlier position does, `clean_doi` succeeds, discards
`pre`, keeps the entire remaining suffix `rest` without validating its
structure, and truncates it at the first `#` if one is present. -/
theorem claim_C8_amended (s : String) (pre rest : List Char) (hs : s ≠ "")
    (hsplit : cleanedInput s.data = pre ++ rest)
    (hstart : startsDoi rest = true)
    (hfirst : ∀ j, j < pre.length → startsDoi (List.drop j (pre ++ rest)) = false) :
    clean_doi s = .ok ⟨rest.takeWhile (fun c => c != '#')⟩ := by
  have hnl : ∀ c ∈ rest, c ≠ '\n' := fun c hc =>
    cleanedInput_no_newline (s := s.data) (by rw [hsplit]; exact List.mem_append_right _ hc)
  have hfm : findDoiMatch (cleanedInput s.data) = some (takeLine rest) := by
    rw [hsplit]
    exact findDoiMatch_append pre rest hfirst hstart
  have hlist : cleanDoiL s.data = .ok (rest.takeWhile (fun c => c != '#')) := by
    unfold cleanDoiL
    rw [if_neg (fun hc => hs ((string_eq_empty_iff s).mpr hc)), hfm]
    show Except.ok ((takeLine rest).takeWhile (fun c => c != '#')) = _
    rw [takeLine_eq_self hnl]
  exact clean_doi_of_cleanDoiL hlist

theorem claim_C8_witness :
    clean_doi "a10.5#x" = .ok ⟨("10.5#x" : String).data.takeWhile (fun c => c != '#')⟩ :=
  claim_C8_amended "a10.5#x" ['a'] ("10.5#x" : String).data (by decide) (by decide)
    (by decide) (by decide)

theorem searchDoiUrl_iff (s : List Char) :
    searchDoiUrl s = true ↔ ∃ i, doiUrlMatchAt (List.drop i s) = true := by
  induction s with
  | nil =>
    simp only [searchDoiUrl, List.drop_nil]
    constructor
    · intro hc
      cases hc
    · rintro ⟨i, hi⟩
      cases hi
  | cons c cs ih =>
    unfold searchDoiUrl
    rw [Bool.or_eq_true, ih]
    constructor
    · rintro (h | ⟨i, hi⟩)
      · exact ⟨0, by rwa [List.drop_zero]⟩
      · exact ⟨i + 1, by rwa [List.drop_succ_cons]⟩
    · rintro ⟨i, hi⟩
      cases i with
      | zero => exact Or.inl (by rwa [List.drop_zero] at hi)
      | succ n => exact Or.inr ⟨n, by rwa [List.drop_succ_cons] at hi⟩

/-- C6 counterexample: the regex of `is_doi_url` is searched anywhere in
the string by `re.findall` and its dots are wildcards, so a url that is
not of the resolver form (here: with a leading `x` before the scheme)
is still accepted. -/
theorem claim_C6_counterexample :
    is_doi_url "xhttp://doi.org/1" = true ∧
      isDoiUrlSpecForm "xhttp://doi.org/1" = false := by
  decide

/-- C6 (amended): `is_doi_url url` is true iff the lowercased url
CONTAINS, at some position, a match of
`https?://(dx<any>)?doi<any>org/` where `<any>` is any character but a
newline (the regex dots are wildcards and the search is unanchored);
it is a total boolean predicate, and
`is_doi_url "http://dx.doi.org/10.1/2"` is true while
`is_doi_url "http://example.com"` is false. -/
theorem claim_C6_amended :
    (∀ url : String, is_doi_url url = true ↔
      ∃ i, doiUrlMatchAt (List.drop i (pyLowerStr url.data)) = true) ∧
    is_doi_url "http://dx.doi.org/10.1/2" = true ∧
    is_doi_url "http://example.com" = false := by
  refine ⟨fun url => ?_, by decide, by decide⟩
  unfold is_doi_url
  exact searchDoiUrl_iff _

theorem claim_C6_witness :
    ∃ i, doiUrlMatchAt
      (List.drop i (pyLowerStr ("http://dx.doi.org/10.1/2" : String).data)) = true :=
  (claim_C6_amended.1 "http://dx.doi.org/10.1/2").mp (by decide)

theorem upper_false_of_space {c : Char} (h : pyIsSpace c = true) :
    isUpperAscii c = false := by
  simp only [pyIsSpace, Bool.or_eq_true, Bool.and_eq_true, decide_eq_true_eq,
    beq_iff_eq] at h
  simp only [isUpperAscii, Bool.and_eq_false_iff, decide_eq_false_iff_not]
  repeat' rcases h with h | h
  all_goals omega

theorem word_false_of_space {c : Char} (h : pyIsSpace c = true) :
    pyIsWordChar c = false := by
  by_cases hw : pyIsWordChar c = true
  · exfalso
    simp only [pyIsWordChar, pyIsAlnum, isAsciiAlnum, Bool.or_eq_true, Bool.and_eq_true,
      decide_eq_true_eq, beq_iff_eq] at hw
    rcases hw with (((hw | hw) | hw) | hw) | hw
    · simp only [pyIsSpace, Bool.or_eq_true, Bool.and_eq_true, decide_eq_true_eq,
        beq_iff_eq] at h
      repeat' rcases h with h | h
      all_goals omega
    · simp only [pyIsSpace, Bool.or_eq_true, Bool.and_eq_true, decide_eq_true_eq,
        beq_iff_eq] at h
      repeat' rcases h with h | h
      all_goals omega
    · simp only [pyIsSpace, Bool.or_eq_true, Bool.and_eq_true, decide_eq_true_eq,
        beq_iff_eq] at h
      repeat' rcases h with h | h
      all_goals omega
    · rw [hw] at h
      exact absurd h (by decide)
    · rw [hw] at h
      exact absurd h (by decide)
  · exact Bool.not_eq_true _ |>.mp hw

theorem asciiAlnum_of_pyIsAlnum {c : Char} (h : pyIsAlnum c = true)
    (hlt : c.toNat < 128) : isAsciiAlnum c = true := by
  simp only [pyIsAlnum, Bool.or_eq_true, beq_iff_eq] at h
  rcases h with h | h
  · exact h
  · rw [h] at hlt
    exact absurd hlt (by decide)

theorem lowerAlnum_word {c : Char} (h : isLowerAlnum c = true) :
    pyIsWordChar c = true := by
  simp only [isLowerAlnum, Bool.or_eq_true, Bool.and_eq_true, decide_eq_true_eq] at h
  simp only [pyIsWordChar, pyIsAlnum, isAsciiAlnum, Bool.or_eq_true, Bool.and_eq_true,
    decide_eq_true_eq, beq_iff_eq]
  rcases h with h | h
  · exact Or.inl (Or.inl (Or.inl (Or.inr h)))
  · exact Or.inl (Or.inl (Or.inr h))

theorem lowerAlnum_not_upper {c : Char} (h : isLowerAlnum c = true) :
    isUpperAscii c = false := by
  simp only [isLowerAlnum, Bool.or_eq_true, Bool.and_eq_true, decide_eq_true_eq] at h
  simp only [isUpperAscii, Bool.and_eq_false_iff, decide_eq_false_iff_not]
  rcases h with h | h
  all_goals omega

theorem lowerAlnum_not_space {c : Char} (h : isLowerAlnum c = true) :
    pyIsSpace c = false := by
  simp only [isLowerAlnum, Bool.or_eq_true, Bool.and_eq_true, decide_eq_true_eq] at h
  simp only [pyIsSpace, Bool.or_eq_false_iff, Bool.and_eq_false_iff,
    decide_eq_false_iff_not, beq_eq_false_iff_ne, ne_eq]
  rcases h with h | h
  all_goals omega

theorem lowerAlnum_keeps {c : Char} (h : isLowerAlnum c = true) :
    (pyIsAlnum c || pyIsSpace c) = true := by
  simp only [isLowerAlnum, Bool.or_eq_true, Bool.and_eq_true, decide_eq_true_eq] at h
  simp only [pyIsAlnum, isAsciiAlnum, Bool.or_eq_true, Bool.and_eq_true,
    decide_eq_true_eq, beq_iff_eq]
  rcases h with h | h
  · exact Or.inl (Or.inl (Or.inl (Or.inr h)))
  · exact Or.inl (Or.inl (Or.inr h))

theorem lowerAlnum_lt {c : Char} (h : isLowerAlnum c = true) : c.toNat < 128 := by
  simp only [isLowerAlnum, Bool.or_eq_true, Bool.and_eq_true, decide_eq_true_eq] at h
  rcases h with h | h
  all_goals omega

theorem lowerAlnum_ne_lt {c : Char} (h : isLowerAlnum c = true) : c ≠ '<' := by
  intro hc
  rw [hc] at h
  exact absurd h (by decide)

theorem stripLead_append {w s r : List Char} (h : stripLead w s = some r) :
    s = w ++ r := by
  induction w generalizing s with
  | nil =>
    rw [List.nil_append]
    exact Option.some.inj h
  | cons p ps ih =>
    cases s with
    | nil => cases h
    | cons c cs =>
      unfold stripLead at h
      by_cases hpc : p = c
      · rw [if_pos hpc] at h
        rw [List.cons_append, ← hpc, ih h]
      · rw [if_neg hpc] at h
        cases h

theorem tryWord_some {w s r : List Char} {prev : Bool}
    (h : tryWord w prev s = some r) :
    prev = false ∧ s = w ++ r ∧
      (r = [] ∨ ∃ c cs, r = c :: cs ∧ pyIsWordChar c = false) := by
  unfold tryWord at h
  by_cases hp : prev = true
  · rw [if_pos hp] at h
    cases h
  · rw [if_neg hp] at h
    refine ⟨Bool.not_eq_true _ |>.mp hp, ?_⟩
    cases hsl : stripLead w s with
    | none =>
      rw [hsl] at h
      cases h
    | some rest =>
      rw [hsl] at h
      cases rest with
      | nil =>
        change some ([] : List Char) = some r at h
        have hr : r = [] := (Option.some.inj h).symm
        subst hr
        exact ⟨stripLead_append hsl, Or.inl rfl⟩
      | cons c cs =>
        change (if pyIsWordChar c = true then none else some (c :: cs)) = some r at h
        by_cases hwc : pyIsWordChar c = true
        · rw [if_pos hwc] at h
          cases h
        · rw [if_neg hwc] at h
          have hr : r = c :: cs := (Option.some.inj h).symm
          subst hr
          exact ⟨stripLead_append hsl, Or.inr ⟨c, cs, rfl, Bool.not_eq_true _ |>.mp hwc⟩⟩

theorem tryWords_some {ws : List (List Char)} {s r : List Char} {prev : Bool}
    (h : tryWords ws prev s = some r) : ∃ w ∈ ws, tryWord w prev s = some r := by
  induction ws with
  | nil => cases h
  | cons w rest ih =>
    unfold tryWords at h
    cases htw : tryWord w prev s with
    | some r' =>
      rw [htw] at h
      exact ⟨w, List.mem_cons_self _ _, by rw [htw, Option.some.inj h]⟩
    | none =>
      rw [htw] at h
      obtain ⟨w', hw', hmatch⟩ := ih h
      exact ⟨w', List.mem_cons_of_mem _ hw', hmatch⟩

theorem tryWords_none_of_prev (ws : List (List Char)) (s : List Char) :
    tryWords ws true s = none := by
  induction ws with
  | nil => rfl
  | cons w rest ih =>
    unfold tryWords
    rw [show tryWord w true s = none from rfl]
    exact ih

theorem mem_reSubWordsF {ws : List (List Char)} {c : Char} :
    ∀ {n : Nat} {b : Bool} {s : List Char}, c ∈ reSubWordsF ws n b s → c ∈ s := by
  intro n
  induction n with
  | zero =>
    intro b s h
    exact h
  | succ n ih =>
    intro b s h
    cases s with
    | nil => exact h
    | cons a as =>
      unfold reSubWordsF at h
      cases htw : tryWords ws b (a :: as) with
      | some r =>
        rw [htw] at h
        obtain ⟨w, -, hmatch⟩ := tryWords_some htw
        obtain ⟨-, happ, -⟩ := tryWord_some hmatch
        rw [happ]
        exact List.mem_append_right _ (ih h)
      | none =>
        rw [htw] at h
        rcases List.mem_cons.mp h with rfl | h2
        · exact List.mem_cons_self _ _
        · exact List.mem_cons_of_mem _ (ih h2)

theorem reSubWordsF_fix_of_prev_word {ws : List (List Char)} :
    ∀ {n : Nat} {s : List Char}, (∀ c ∈ s, pyIsWordChar c = true) →
      reSubWordsF ws n true s = s := by
  intro n
  induction n with
  | zero =>
    intro s _
    rfl
  | succ n ih =>
    intro s h
    cases s with
    | nil => rfl
    | cons a as =>
      unfold reSubWordsF
      rw [tryWords_none_of_prev]
      show a :: reSubWordsF ws n (pyIsWordChar a) as = a :: as
      rw [h a (List.mem_cons_self _ _)]
      exact congrArg (a :: ·) (ih (fun d hd => h d (List.mem_cons_of_mem _ hd)))

theorem reSubWordsF_fix_of_no_word {ws : List (List Char)}
    (hws : ∀ w ∈ ws, ∃ c0 cs0, w = c0 :: cs0 ∧ pyIsWordChar c0 = true) :
    ∀ {n : Nat} {b : Bool} {s : List Char}, (∀ c ∈ s, pyIsWordChar c = false) →
      reSubWordsF ws n b s = s := by
  intro n
  induction n with
  | zero =>
    intro b s _
    rfl
  | succ n ih =>
    intro b s h
    cases s with
    | nil => rfl
    | cons a as =>
      unfold reSubWordsF
      have htw : tryWords ws b (a :: as) = none := by
        cases htw : tryWords ws b (a :: as) with
        | none => rfl
        | some r =>
          obtain ⟨w, hw, hmatch⟩ := tryWords_some htw
          obtain ⟨c0, cs0, rfl, hc0⟩ := hws w hw
          obtain ⟨-, happ, -⟩ := tryWord_some hmatch
          rw [List.cons_append] at happ
          rw [← (List.cons.inj happ).1, h a (List.mem_cons_self _ _)] at hc0
          cases hc0
      rw [htw]
      show a :: reSubWordsF ws n (pyIsWordChar a) as = a :: as
      exact congrArg (a :: ·) (ih (fun d hd => h d (List.mem_cons_of_mem _ hd)))

theorem reSubWords_fix_of_no_word {ws : List (List Char)}
    (hws : ∀ w ∈ ws, ∃ c0 cs0, w = c0 :: cs0 ∧ pyIsWordChar c0 = true)
    {s : List Char} (h : ∀ c ∈ s, pyIsWordChar c = false) :
    reSubWords ws s = s :=
  reSubWordsF_fix_of_no_word hws h

theorem reSubWords_fix_of_word {ws : List (List Char)} {s : List Char}
    (hchar : ∀ c ∈ s, pyIsWordChar c = true) (hs : s ∉ ws) :
    reSubWords ws s = s := by
  unfold reSubWords
  cases s with
  | nil => rfl
  | cons a as =>
    show reSubWordsF ws (as.length + 1) false (a :: as) = a :: as
    unfold reSubWordsF
    have htw : tryWords ws false (a :: as) = none := by
      cases htw : tryWords ws false (a :: as) with
      | none => rfl
      | some r =>
        obtain ⟨w, hw, hmatch⟩ := tryWords_some htw
        obtain ⟨-, happ, hr⟩ := tryWord_some hmatch
        rcases hr with rfl | ⟨d, ds, rfl, hd⟩
        · rw [List.append_nil] at happ
          exact (hs (happ ▸ hw)).elim
        · have hdmem : d ∈ a :: as := by
            rw [happ]
            exact List.mem_append_right _ (List.mem_cons_self _ _)
          rw [hchar d hdmem] at hd
          cases hd
    rw [htw]
    show a :: reSubWordsF ws as.length (pyIsWordChar a) as = a :: as
    rw [hchar a (List.mem_cons_self _ _)]
    exact congrArg (a :: ·)
      (reSubWordsF_fix_of_prev_word (fun d hd => hchar d (List.mem_cons_of_mem _ hd)))

theorem findGt_subset {s r : List Char} (h : findGt s = some r) :
    ∀ c ∈ r, c ∈ s := by
  induction s with
  | nil => cases h
  | cons a as ih =>
    unfold findGt at h
    by_cases ha : a = '>'
    · rw [if_pos ha] at h
      intro c hc
      exact List.mem_cons_of_mem _ (Option.some.inj h ▸ hc)
    · rw [if_neg ha] at h
      by_cases hn : a = '\n'
      · rw [if_pos hn] at h
        cases h
      · rw [if_neg hn] at h
        intro c hc
        exact List.mem_cons_of_mem _ (ih h c hc)

theorem mem_cleanHtmlF {c : Char} :
    ∀ {n : Nat} {s : List Char}, c ∈ cleanHtmlF n s → c ∈ s := by
  intro n
  induction n with
  | zero =>
    intro s h
    exact h
  | succ n ih =>
    intro s h
    cases s with
    | nil => exact h
    | cons a as =>
      unfold cleanHtmlF at h
      by_cases ha : a = '<'
      · rw [if_pos ha] at h
        cases hg : findGt as with
        | some r =>
          rw [hg] at h
          exact List.mem_cons_of_mem _ (findGt_subset hg c (ih h))
        | none =>
          rw [hg] at h
          rcases List.mem_cons.mp h with rfl | h2
          · exact List.mem_cons_self _ _
          · exact List.mem_cons_of_mem _ (ih h2)
      · rw [if_neg ha] at h
        rcases List.mem_cons.mp h with rfl | h2
        · exact List.mem_cons_self _ _
        · exact List.mem_cons_of_mem _ (ih h2)

theorem cleanHtmlF_fix :
    ∀ {n : Nat} {s : List Char}, '<' ∉ s → cleanHtmlF n s = s := by
  intro n
  induction n with
  | zero =>
    intro s _
    rfl
  | succ n ih =>
    intro s h
    cases s with
    | nil => rfl
    | cons a as =>
      unfold cleanHtmlF
      rw [if_neg (fun ha => h (by rw [← ha]; exact List.mem_cons_self a as))]
      exact congrArg (a :: ·) (ih (fun hc => h (List.mem_cons_of_mem _ hc)))

theorem clean_html_fix {s : List Char} (h : '<' ∉ s) : clean_html s = s :=
  cleanHtmlF_fix h

theorem mem_clean_html {c : Char} {s : List Char} (h : c ∈ clean_html s) : c ∈ s :=
  mem_cleanHtmlF h

theorem unidecodeChar_ascii {c : Char} (h : c.toNat < 128) : unidecodeChar c = [c] := by
  unfold unidecodeChar
  rw [if_pos h]

theorem mem_unidecodeChar_lt {c d : Char} (h : c ∈ unidecodeChar d) :
    c.toNat < 128 := by
  unfold unidecodeChar at h
  by_cases h1 : d.toNat < 128
  · rw [if_pos h1] at h
    rw [List.mem_singleton.mp h]
    exact h1
  · rw [if_neg h1] at h
    by_cases h2 : d = 'é'
    · rw [if_pos h2] at h
      rw [List.mem_singleton.mp h]
      decide
    · rw [if_neg h2] at h
      by_cases h3 : d = '№'
      · rw [if_pos h3] at h
        rcases List.mem_cons.mp h with rfl | h4
        · decide
        · rw [List.mem_singleton.mp h4]
          decide
      · rw [if_neg h3] at h
        cases h

theorem unidecodeStr_fix {s : List Char} (h : ∀ c ∈ s, c.toNat < 128) :
    unidecodeStr s = s := by
  induction s with
  | nil => rfl
  | cons a as ih =>
    unfold unidecodeStr
    rw [List.flatMap_cons, unidecodeChar_ascii (h a (List.mem_cons_self _ _))]
    exact congrArg (a :: ·) (ih (fun d hd => h d (List.mem_cons_of_mem _ hd)))

theorem mem_normalizeL {c : Char} {s : List Char} (h : c ∈ normalizeL s) :
    pyIsSpace c = false ∧ pyIsAlnum c = true ∧
      ∃ d ∈ s, ∃ e ∈ pyLowerChar d, c ∈ unidecodeChar e := by
  unfold normalizeL at h
  have h1 := List.mem_filter.mp h
  have hs : pyIsSpace c = false := by simpa using h1.2
  have h3 : c ∈ stopArticles (remove_punctuation
      (clean_html (unidecodeStr (pyLowerStr s)))) :=
    mem_reSubWordsF h1.1
  have h4 : c ∈ remove_punctuation (clean_html (unidecodeStr (pyLowerStr s))) :=
    mem_reSubWordsF h3
  have h5 := List.mem_filter.mp h4
  have halnum : pyIsAlnum c = true := by
    have := h5.2
    rw [Bool.or_eq_true, hs] at this
    rcases this with h6 | h6
    · exact h6
    · cases h6
  have h7 : c ∈ unidecodeStr (pyLowerStr s) := mem_clean_html h5.1
  obtain ⟨e, he, hce⟩ := List.mem_flatMap.mp h7
  obtain ⟨d, hd, hde⟩ := List.mem_flatMap.mp he
  exact ⟨hs, halnum, d, hd, e, hde, hce⟩

theorem normalizeL_of_space {s : List Char} (h : ∀ c ∈ s, pyIsSpace c = true) :
    normalizeL s = [] := by
  unfold normalizeL
  rw [show pyLowerStr s = s from
    flatMap_fix (fun c hc => pyLowerChar_fix (upper_false_of_space (h c hc)) (by
      intro he
      have hsp := h c hc
      rw [he] at hsp
      exact absurd hsp (by decide)))]
  have h1 : ∀ c ∈ unidecodeStr s, pyIsSpace c = true := by
    intro c hc
    obtain ⟨d, hd, hcd⟩ := List.mem_flatMap.mp hc
    by_cases hlt : d.toNat < 128
    · rw [unidecodeChar_ascii hlt] at hcd
      rw [List.mem_singleton.mp hcd]
      exact h d hd
    · exfalso
      unfold unidecodeChar at hcd
      rw [if_neg hlt] at hcd
      by_cases h2 : d = 'é'
      · exact absurd (h d hd) (by rw [h2]; decide)
      · rw [if_neg h2] at hcd
        by_cases h3 : d = '№'
        · exact absurd (h d hd) (by rw [h3]; decide)
        · rw [if_neg h3] at hcd
          cases hcd
  have h2 : '<' ∉ unidecodeStr s := fun hc => absurd (h1 _ hc) (by decide)
  rw [clean_html_fix h2]
  rw [show remove_punctuation (unidecodeStr s) = unidecodeStr s from
    List.filter_eq_self.mpr (fun c hc => by rw [h1 c hc]; simp)]
  have h4 : ∀ c ∈ unidecodeStr s, pyIsWordChar c = false :=
    fun c hc => word_false_of_space (h1 c hc)
  have hws_art : ∀ w ∈ [['a'], ['a', 'n'], ['t', 'h', 'e']],
      ∃ c0 cs0, w = c0 :: cs0 ∧ pyIsWordChar c0 = true := by
    intro w hw
    simp only [List.mem_cons, List.not_mem_nil, or_false] at hw
    rcases hw with rfl | rfl | rfl
    · exact ⟨'a', [], rfl, by decide⟩
    · exact ⟨'a', ['n'], rfl, by decide⟩
    · exact ⟨'t', ['h', 'e'], rfl, by decide⟩
  have hws_and : ∀ w ∈ [['a', 'n', 'd']],
      ∃ c0 cs0, w = c0 :: cs0 ∧ pyIsWordChar c0 = true := by
    intro w hw
    rw [List.mem_singleton.mp hw]
    exact ⟨'a', ['n', 'd'], rfl, by decide⟩
  rw [show stopArticles (unidecodeStr s) = unidecodeStr s from
    reSubWords_fix_of_no_word hws_art h4]
  rw [show stopAnd (unidecodeStr s) = unidecodeStr s from
    reSubWords_fix_of_no_word hws_and h4]
  exact List.filter_eq_nil_iff.mpr (fun a ha => by simp [h1 a ha])

theorem normalizeL_fix_of_word {s : List Char}
    (hchar : ∀ c ∈ s, isLowerAlnum c = true)
    (h1 : s ≠ ['a']) (h2 : s ≠ ['a', 'n']) (h3 : s ≠ ['t', 'h', 'e'])
    (h4 : s ≠ ['a', 'n', 'd']) :
    normalizeL s = s := by
  unfold normalizeL
  rw [show pyLowerStr s = s from
    flatMap_fix (fun c hc => pyLowerChar_fix (lowerAlnum_not_upper (hchar c hc)) (by
      intro he
      have hlt := lowerAlnum_lt (hchar c hc)
      rw [he] at hlt
      exact absurd hlt (by decide)))]
  rw [unidecodeStr_fix (fun c hc => lowerAlnum_lt (hchar c hc))]
  rw [clean_html_fix (fun hc => absurd (hchar _ hc) (by decide))]
  rw [show remove_punctuation s = s from
    List.filter_eq_self.mpr (fun c hc => lowerAlnum_keeps (hchar c hc))]
  have hword : ∀ c ∈ s, pyIsWordChar c = true :=
    fun c hc => lowerAlnum_word (hchar c hc)
  rw [show stopArticles s = s from reSubWords_fix_of_word hword (by
    intro hmem
    simp only [List.mem_cons, List.not_mem_nil, or_false] at hmem
    rcases hmem with hm | hm | hm
    · exact h1 hm
    · exact h2 hm
    · exact h3 hm)]
  rw [show stopAnd s = s from reSubWords_fix_of_word hword (by
    intro hmem
    exact h4 (List.mem_singleton.mp hmem))]
  exact List.filter_eq_self.mpr (fun c hc => by rw [lowerAlnum_not_space (hchar c hc)]; rfl)

/-- C10: every character of a `normalize` result is an ASCII
alphanumeric character: the transliteration model emits only ASCII,
`remove_punctuation` then keeps only alphanumerics and whitespace, and
the final step deletes all whitespace. -/
theorem claim_C10 (t : String) : ∀ c ∈ (normalize t).data, isAsciiAlnum c = true := by
  intro c hc
  obtain ⟨-, halnum, d, -, e, -, hce⟩ :=
    mem_normalizeL (show c ∈ normalizeL t.data from hc)
  exact asciiAlnum_of_pyIsAlnum halnum (mem_unidecodeChar_lt hce)

theorem claim_C10_witness : isAsciiAlnum 'x' = true :=
  claim_C10 "xy" 'x' (by decide)

/-- C5 counterexample: `normalize` can output uppercase ASCII letters for
non-ASCII input: the numero sign has no lowercase form, so `lower()`
leaves it alone, and `unidecode` then transliterates it to `No` with a
capital `N` that survives every later step. -/
theorem claim_C5_counterexample :
    normalize "№" = "No" ∧ 'N' ∈ (normalize "№").data ∧ isUpperAscii 'N' = true := by
  decide

/-- C5 (amended): for every input `t`, `normalize t` contains no
whitespace characters; and when every character of `t` is ASCII, it
contains no uppercase ASCII letters either (transliteration of
non-ASCII characters, which happens after lowercasing, can introduce
uppercase letters). -/
theorem claim_C5_amended :
    (∀ t : String, ∀ c ∈ (normalize t).data, pyIsSpace c = false) ∧
    (∀ t : String, (∀ c ∈ t.data, c.toNat < 128) →
      ∀ c ∈ (normalize t).data, isUpperAscii c = false) := by
  constructor
  · intro t c hc
    exact (mem_normalizeL (show c ∈ normalizeL t.data from hc)).1
  · intro t ht c hc
    obtain ⟨-, -, d, hd, e, hde, hce⟩ :=
      mem_normalizeL (show c ∈ normalizeL t.data from hc)
    have hdne : d ≠ 'İ' := by
      intro he
      have hlt := ht d hd
      rw [he] at hlt
      exact absurd hlt (by decide)
    rw [pyLowerChar_of_ne hdne] at hde
    rw [List.mem_singleton.mp hde] at hce
    rw [unidecodeChar_ascii (pyLower_toNat_lt (ht d hd))] at hce
    rw [List.mem_singleton.mp hce]
    exact isUpperAscii_pyLower d

theorem claim_C5_witness : pyIsSpace 'x' = false ∧ isUpperAscii 'x' = false :=
  ⟨claim_C5_amended.1 "X Y" 'x' (by decide),
   claim_C5_amended.2 "X Y" (by decide) 'x' (by decide)⟩

/-- C7: `normalize` is total (it is a plain function in this model, with
no failure path in the source) and maps every whitespace-only input —
in particular the empty string — to the empty string rather than an
error. -/
theorem claim_C7 :
    (∀ t : String, (∀ c ∈ t.data, pyIsSpace c = true) → normalize t = "") ∧
    normalize "" = "" := by
  constructor
  · intro t h
    show (⟨normalizeL t.data⟩ : String) = ""
    rw [normalizeL_of_space h]
  · rfl

theorem claim_C7_witness : normalize " " = "" :=
  claim_C7.1 " " (by decide)

/-- C9: the stopword regexes of `normalize` delete `a`, `an`, `the`,
`and` only as standalone whole words: every word of lowercase ASCII
alphanumerics other than those four — in particular any word containing
one of them as a proper substring, such as `sand` — passes through
`normalize` unchanged. -/
theorem claim_C9 (s : String) (hchar : ∀ c ∈ s.data, isLowerAlnum c = true)
    (h1 : s ≠ "a") (h2 : s ≠ "an") (h3 : s ≠ "the") (h4 : s ≠ "and") :
    normalize s = s := by
  obtain ⟨ls⟩ := s
  show (⟨normalizeL ls⟩ : String) = ⟨ls⟩
  rw [normalizeL_fix_of_word hchar
    (fun hc => h1 (String.ext_iff.mpr hc))
    (fun hc => h2 (String.ext_iff.mpr hc))
    (fun hc => h3 (String.ext_iff.mpr hc))
    (fun hc => h4 (String.ext_iff.mpr hc))]

theorem claim_C9_witness : normalize "sand" = "sand" :=
  claim_C9 "sand" (by decide) (by decide) (by decide) (by decide) (by decide)

/-- C4 counterexample: `normalize_simple` does NOT collapse whitespace to
single spaces (its final step deletes all whitespace, exactly like
`normalize`) and does NOT remove the word `and` (it lacks the second
stopword regex): on `"The Cat  and Dog"` it returns `"catanddog"`, not
a spaced string without `and`. -/
theorem claim_C4_counterexample :
    normalize_simple "The Cat  and Dog" = "catanddog" ∧
      ∀ c ∈ (normalize_simple "The Cat  and Dog").data, pyIsSpace c = false := by
  decide

/-- C4 (amended): `normalize_simple` differs from `normalize` by omitting
the transliteration step, the HTML-stripping step and the whole-word
`and` removal; like `normalize` it deletes all whitespace rather than
collapsing it. Hence the two functions agree on any input that is all
ASCII, contains no `<`, and on which the `and`-removal step is a no-op;
and `normalize_simple "The Cat  and Dog" = "catanddog"`. -/
theorem claim_C4_amended :
    (∀ t : String, (∀ c ∈ t.data, c.toNat < 128) → '<' ∉ t.data →
      stopAnd (stopArticles (remove_punctuation (pyLowerStr t.data))) =
        stopArticles (remove_punctuation (pyLowerStr t.data)) →
      normalize t = normalize_simple t) ∧
    normalize_simple "The Cat  and Dog" = "catanddog" := by
  constructor
  · intro t hascii hlt hand
    show (⟨normalizeL t.data⟩ : String) = ⟨normalizeSimpleL t.data⟩
    congr 1
    unfold normalizeL normalizeSimpleL
    rw [unidecodeStr_fix (fun c hc => by
      obtain ⟨d, hd, rfl⟩ := mem_pyLowerStr_ascii hascii hc
      exact pyLower_toNat_lt (hascii d hd))]
    rw [clean_html_fix (fun hc => by
      obtain ⟨d, hd, hdc⟩ := mem_pyLowerStr_ascii hascii hc
      exact pyLower_ne_lt (fun he => hlt (he ▸ hd)) hdc.symm)]
    rw [hand]
  · decide

theorem claim_C4_witness :
    normalize "The Cat Dog" = normalize_simple "The Cat Dog" ∧
      normalize_simple "The Cat  and Dog" = "catanddog" :=
  ⟨claim_C4_amended.1 "The Cat Dog" (by decide) (by decide) (by decide),
   claim_C4_amended.2⟩

end Paperbuzz
